import Mathlib

/-!
Verification of the secret-fills search/aggregation pipeline.

The definitions below are a shallow embedding of src/secret_fills.py:
strings are lists of characters, queues are lists in arrival order,
generators are functions returning the list of yielded values (cut short
when the underlying code would raise), and the subprocess/JSON boundary
is a `decode` parameter standing for json.loads on one line of yt-dlp
output.
-/

namespace SecretFills

/-- Python strings are modelled as lists of characters. -/
abbrev Str := List Char

/-- The field separator of the results file: the string given by
a space, a pipe and a space. -/
def SEP : Str := [' ', '|', ' ']

/-- The characters stripped by Python str.strip (whitespace). -/
def pyIsSpace (c : Char) : Bool :=
  c = ' ' || c = '\t' || c = '\n' || c = '\r' || c = '\x0b' || c = '\x0c'

/-- Python str.strip: drop whitespace from both ends. -/
def pyStrip (s : Str) : Str :=
  ((s.dropWhile pyIsSpace).reverse.dropWhile pyIsSpace).reverse

/-- One raw candidate record as produced by the backend (the JSON fields
of one line of yt-dlp -j output that secret_fills.py reads). -/
structure VideoData where
  title : Str
  uploader : Str
  display_id : Str
  upload_date : Str
  original_url : Str
deriving DecidableEq, Repr

/-- The SearchResult named tuple of secret_fills.py. -/
structure SearchResult where
  colored_display : Str
  display : Str
  search_term : Str
  similarity : Nat
deriving DecidableEq, Repr

/-- A calendar date, the projection of a Python datetime produced by
strptime with format (year, month, day). -/
structure Date where
  y : Nat
  m : Nat
  d : Nat
deriving DecidableEq, Repr

/-- Chronological order on datetimes whose time-of-day parts are zero:
lexicographic on (year, month, day). -/
def dateLt (a b : Date) : Bool :=
  if a.y = b.y then (if a.m = b.m then decide (a.d < b.d) else decide (a.m < b.m))
  else decide (a.y < b.y)

/-- Leap-year test of the Gregorian calendar (as used by Python datetime). -/
def isLeap (y : Nat) : Bool :=
  (y % 4 = 0 && y % 100 != 0) || y % 400 = 0

/-- Number of days in a month, as validated by datetime. -/
def daysInMonth (y m : Nat) : Nat :=
  if m = 2 then (if isLeap y then 29 else 28)
  else if m = 4 || m = 6 || m = 9 || m = 11 then 30
  else 31

/-- Numeric value of a decimal digit character. -/
def digitVal (c : Char) : Nat := c.toNat - 48

/-- datetime.strptime(s, yyyymmdd-format): exactly eight digits, with the
year at least 1 and a valid calendar month/day; raises (None) otherwise. -/
def parse8 (s : Str) : Option Date :=
  match s with
  | [y1, y2, y3, y4, m1, m2, d1, d2] =>
    if (s.all Char.isDigit) then
      let y := 1000 * digitVal y1 + 100 * digitVal y2 + 10 * digitVal y3 + digitVal y4
      let m := 10 * digitVal m1 + digitVal m2
      let d := 10 * digitVal d1 + digitVal d2
      if 1 ≤ y ∧ 1 ≤ m ∧ m ≤ 12 ∧ 1 ≤ d ∧ d ≤ daysInMonth y m then some ⟨y, m, d⟩
      else none
    else none
  | _ => none

/-- Decimal representation of a natural number, as a character list. -/
def natStr (n : Nat) : Str := (Nat.repr n).data

/-- Zero-padded decimal representation of width w (Python format(n, "0w")
and the zero padding of strftime). -/
def padNum (w n : Nat) : Str :=
  List.replicate (w - (natStr n).length) '0' ++ natStr n

/-- strftime of a date in dashed form: year-month-day, zero padded. -/
def dashed (dt : Date) : Str :=
  padNum 4 dt.y ++ ('-' :: padNum 2 dt.m) ++ ('-' :: padNum 2 dt.d)

/-- strftime of a date in the compact eight-digit form read back by parse8. -/
def fmt8 (dt : Date) : Str :=
  padNum 4 dt.y ++ padNum 2 dt.m ++ padNum 2 dt.d

/-- ANSI color code used by termcolor for the color names that appear in
secret_fills.py. -/
def colorCode (c : Str) : Str :=
  if c = ('r' :: 'e' :: 'd' :: []) then ('3' :: '1' :: [])
  else if c = ('g' :: 'r' :: 'e' :: 'e' :: 'n' :: []) then ('3' :: '2' :: [])
  else if c = ('y' :: 'e' :: 'l' :: 'l' :: 'o' :: 'w' :: []) then ('3' :: '3' :: [])
  else ('3' :: '7' :: [])

/-- termcolor.colored(text, color): wrap the text in an ANSI escape pair. -/
def colored (s : Str) (c : Str) : Str :=
  ('\x1b' :: '[' :: colorCode c) ++ ('m' :: s) ++ ('\x1b' :: '[' :: '0' :: 'm' :: [])

/-- Python int() on the similarity field: a nonempty string of decimal
digits parses to its value; anything else raises (None). -/
def parseNat (s : Str) : Option Nat :=
  if s ≠ [] ∧ s.all Char.isDigit then
    some (s.foldl (fun acc c => 10 * acc + digitVal c) 0)
  else none

/-- Length of the longest common prefix of two character lists. -/
def commonPrefixLen : Str → Str → Nat
  | a :: as, b :: bs => if a = b then commonPrefixLen as bs + 1 else 0
  | _, _ => 0

/-- Length of the longest common contiguous substring of two character
lists: the maximum, over all pairs of suffixes, of their common prefix. -/
def lcsLen (a b : Str) : Nat :=
  ((List.range (a.length + 1)).map (fun i =>
    ((List.range (b.length + 1)).map (fun j =>
      commonPrefixLen (a.drop i) (b.drop j))).foldr max 0)).foldr max 0

/-- Modelled from the spec: the similarity scorer (thefuzz
fuzz.partial_ratio in the source, an external library). The spec asks for
a deterministic total function into the integers 0..100 that rates a
substring or near-substring relationship high; this model scores the
longest common contiguous substring relative to the shorter input, with
two empty inputs scoring 100 as a full match. -/
def score (cand query : Str) : Nat :=
  let m := min cand.length query.length
  if m = 0 then (if cand.length = 0 ∧ query.length = 0 then 100 else 0)
  else 100 * lcsLen cand query / m

/-- The pair of display strings built by format_search_result from a raw
record whose upload date has already been parsed (format_search_result
re-parses the same eight-digit field, which yields this date again):
the colored display and the plain display, both laid out as
date, similarity, title, uploader, url joined by SEP. -/
def formatFromDate (v : VideoData) (up : Date) (similarity : Nat) : Str × Str :=
  let dateStr := dashed up
  let simColor : Str :=
    if 80 ≤ similarity then ('r' :: 'e' :: 'd' :: [])
    else if 50 ≤ similarity then ('y' :: 'e' :: 'l' :: 'l' :: 'o' :: 'w' :: [])
    else ('w' :: 'h' :: 'i' :: 't' :: 'e' :: [])
  let similarityStr := colored (padNum 3 similarity) simColor
  (colored dateStr ('w' :: 'h' :: 'i' :: 't' :: 'e' :: []) ++ SEP ++ similarityStr
     ++ SEP ++ colored v.title ('g' :: 'r' :: 'e' :: 'e' :: 'n' :: [])
     ++ SEP ++ colored v.uploader ('y' :: 'e' :: 'l' :: 'l' :: 'o' :: 'w' :: [])
     ++ SEP ++ v.original_url,
   dateStr ++ SEP ++ natStr similarity ++ SEP ++ v.title ++ SEP ++ v.uploader
     ++ SEP ++ v.original_url)

/-- format_search_result: parse the raw eight-digit upload date (strptime,
which raises on malformed input) and build the two display strings. -/
def formatSearchResult (v : VideoData) (similarity : Nat) : Option (Str × Str) :=
  (parse8 v.upload_date).map (fun up => formatFromDate v up similarity)

/-- The SearchResult emitted by the search loop for a passing candidate. -/
def mkSearchResult (v : VideoData) (up : Date) (similarity : Nat) (ss : Str) :
    SearchResult :=
  ⟨(formatFromDate v up similarity).1, (formatFromDate v up similarity).2, ss, similarity⟩

/-- ytdlp_results: read lines from the subprocess and yield json.loads of
each. `decode` stands for json.loads of one line; a line it cannot decode
raises, which ends the generator after the records already yielded. The
boolean records whether the stream ended in that error. -/
def ytdlpResults (decode : Str → Option VideoData) : List Str → List VideoData × Bool
  | [] => ([], false)
  | l :: ls =>
    match decode l with
    | none => ([], true)
    | some v =>
      let p := ytdlpResults decode ls
      (v :: p.1, p.2)

/-- The test "ignore_before is not None and uploaded < ignore_before". -/
def cutoffHit (ignoreBefore : Option Date) (up : Date) : Bool :=
  match ignoreBefore with
  | none => false
  | some cutoff => dateLt up cutoff

/-- The search stage of secret_fills.py applied to the candidate records
the backend yielded: drop a candidate whose uploader is ignored, else one
whose display id is ignored, else parse its upload date (strptime raises
on a malformed date, ending the generator), drop it when a cutoff is set
and the date is strictly before it, and otherwise score the title against
the search string and emit a SearchResult. The result-count bound n only
shapes the backend invocation. -/
def search (ss : Str) (n : Nat) (ignoreUploaders ignoreIds : List Str)
    (ignoreBefore : Option Date) : List VideoData → List SearchResult
  | [] => []
  | v :: rest =>
    if v.uploader ∈ ignoreUploaders then
      search ss n ignoreUploaders ignoreIds ignoreBefore rest
    else if v.display_id ∈ ignoreIds then
      search ss n ignoreUploaders ignoreIds ignoreBefore rest
    else
      match parse8 v.upload_date with
      | none => []
      | some up =>
        if cutoffHit ignoreBefore up then
          search ss n ignoreUploaders ignoreIds ignoreBefore rest
        else
          mkSearchResult v up (score v.title ss) ss ::
            search ss n ignoreUploaders ignoreIds ignoreBefore rest

/-- queue_into_list: pop elements until the queue is empty, appending each
to the list. -/
def queueIntoList {α : Type} : List α → List α → List α
  | [], lst => lst
  | x :: q, lst => queueIntoList q (lst ++ [x])

/-- The value run returns: the store queue, holding every result in
arrival order, drained into a fresh list. -/
def runReturn (store : List SearchResult) : List SearchResult :=
  queueIntoList store []

/-- One worker thread of run (do_search): pull records from ytdlp_results
for one query and emit the search stage's results; a decode error ends the
stream after the records already parsed, and the results emitted up to
that point stand. -/
def workerResults (decode : Str → Option VideoData) (n : Nat)
    (ignoreUploaders ignoreIds : List Str) (qc : Str × Option Date)
    (stream : List Str) : List SearchResult :=
  search qc.1 n ignoreUploaders ignoreIds qc.2 (ytdlpResults decode stream).1

/-- run, from the point the workers start: one worker per
(query, cutoff) pair with its backend stream, every emitted result put on
the store queue, and the store drained into the returned list. Arrival
order across workers is unspecified; this model fixes the sequential
interleaving, one admissible arrival order. Nothing else is returned. -/
def runModel (decode : Str → Option VideoData) (n : Nat)
    (queries : List (Str × Option Date)) (streams : List (List Str))
    (ignoreUploaders ignoreIds : List Str) : List SearchResult :=
  queueIntoList
    (((queries.zip streams).map
      (fun p => workerResults decode n ignoreUploaders ignoreIds p.1 p.2)).flatten)
    []

theorem queueIntoList_eq {α : Type} (q lst : List α) :
    queueIntoList q lst = lst ++ q := by
  induction q generalizing lst with
  | nil => simp [queueIntoList]
  | cons x q ih => simp [queueIntoList, ih]

/-! Concrete fixtures used by counterexamples and witnesses. -/

/-- A candidate record that decodes and passes every filter. -/
def vGood : VideoData :=
  ⟨('a' :: 'b' :: []), ('u' :: 'p' :: []), ('i' :: 'd' :: '1' :: []),
   ("20240102").data, ('u' :: 'r' :: 'l' :: 'g' :: [])⟩

/-- A json.loads stand-in: the line "g" decodes to vGood, every other
line is malformed. -/
def decodeEx : Str → Option VideoData :=
  fun l => if l = ('g' :: []) then some vGood else none

/-- Two ScoredResults carrying the same candidate identifier (the final
pipe-delimited url field u1 of their displays) with scores 40 and 85. -/
def cA : SearchResult :=
  ⟨[], ("2024-01-01 | 40 | t1 | up | u1").data, ('q' :: '1' :: []), 40⟩

/-- See cA: the score-85 result for the same identifier u1. -/
def cB : SearchResult :=
  ⟨[], ("2024-01-02 | 85 | t2 | upX | u1").data, ('q' :: '2' :: []), 85⟩

/-- Claim C1, counterexample: with the score-40 and score-85 results for
identifier u1 arriving in that order, the list run returns holds two
entries whose final pipe-delimited field is u1, not exactly one. -/
theorem c1_counterexample :
    ((runReturn [cA, cB]).filter
        (fun r => decide ((SEP ++ ('u' :: '1' :: [])) <:+ r.display))).length = 2
    ∧ ¬ ((runReturn [cA, cB]).filter
        (fun r => decide ((SEP ++ ('u' :: '1' :: [])) <:+ r.display))).length = 1 := by
  decide

/-- Claim C1 (amended): run performs no deduplication. Two results with
the same candidate identifier and distinct scores, arriving in either
order, are both present in the returned list, in arrival order; the
higher-score entry is retained, but so is the lower-score one. -/
theorem c1_no_dedup (a b : SearchResult) :
    runReturn [a, b] = [a, b] ∧ runReturn [b, a] = [b, a]
    ∧ a ∈ runReturn [a, b] ∧ b ∈ runReturn [a, b] := by
  simp [runReturn, queueIntoList_eq]

/-- Claim C2, counterexample: permuting the arrival order of two distinct
results changes the list run returns, so the finalized value is not
identical across arrival permutations. -/
theorem c2_counterexample :
    ¬ (runReturn [cA, cB] = runReturn [cB, cA]) := by
  decide

/-- Claim C2 (amended): the collection step returns the arrival sequence
itself, so permuting arrivals permutes the returned list: the outputs
agree as multisets (are permutations of each other) but not as lists. -/
theorem c2_perm_invariant (s t : List SearchResult) (h : s.Perm t) :
    (runReturn s).Perm (runReturn t) := by
  simpa [runReturn, queueIntoList_eq] using h

/-- Witness for c2_perm_invariant at the two-element arrival sequences. -/
theorem c2_perm_invariant_witness :
    (runReturn [cA, cB]).Perm (runReturn [cB, cA]) :=
  c2_perm_invariant [cA, cB] [cB, cA] (List.Perm.swap cB cA [])

/-- Claim C3, counterexample: a run in which the second query's stream
fails on its first record (so that query did not complete) returns
exactly the same value as a run in which the second query completes with
no results; run's return value carries no separately identifiable set of
failed queries. -/
theorem c3_counterexample :
    runModel decodeEx 10 [(('a' :: 'b' :: []), none), (('c' :: 'd' :: []), none)]
        [[('g' :: [])], [('x' :: [])]] [] []
      = runModel decodeEx 10 [(('a' :: 'b' :: []), none), (('c' :: 'd' :: []), none)]
        [[('g' :: [])], []] [] []
    ∧ (ytdlpResults decodeEx [('x' :: [])]).2 = true
    ∧ (ytdlpResults decodeEx []).2 = false := by
  decide

/-- Claim C3 (amended): run returns only the list of collected results.
Whether a query failed is not part of the return value: any two stream
assignments whose successfully parsed record prefixes agree per query
produce the same return value, so a failed query is indistinguishable in
run's output from a successful query yielding those same records. -/
theorem c3_no_failure_reporting (decode : Str → Option VideoData) (n : Nat)
    (qs : List (Str × Option Date)) (ignoreUploaders ignoreIds : List Str)
    (s t : List (List Str))
    (h : s.map (fun l => (ytdlpResults decode l).1)
       = t.map (fun l => (ytdlpResults decode l).1)) :
    runModel decode n qs s ignoreUploaders ignoreIds
      = runModel decode n qs t ignoreUploaders ignoreIds := by
  unfold runModel
  have key : ∀ (qs : List (Str × Option Date)) (s t : List (List Str)),
      s.map (fun l => (ytdlpResults decode l).1)
        = t.map (fun l => (ytdlpResults decode l).1) →
      (qs.zip s).map
          (fun p => workerResults decode n ignoreUploaders ignoreIds p.1 p.2)
        = (qs.zip t).map
          (fun p => workerResults decode n ignoreUploaders ignoreIds p.1 p.2) := by
    intro qs
    induction qs with
    | nil => intro s t _; simp
    | cons q qs' ih =>
      intro s t h
      cases s with
      | nil =>
        cases t with
        | nil => rfl
        | cons l₂ t' => simp at h
      | cons l s' =>
        cases t with
        | nil => simp at h
        | cons l₂ t' =>
          simp only [List.map_cons, List.cons.injEq] at h
          simp only [List.zip_cons_cons, List.map_cons]
          rw [ih s' t' h.2]
          congr 1
          unfold workerResults
          rw [h.1]
  rw [key qs s t h]

/-- Witness for c3_no_failure_reporting: one query, its stream failing
after one good record versus completing with that record. -/
theorem c3_no_failure_reporting_witness :
    runModel decodeEx 10 [(('a' :: 'b' :: []), none)]
        [[('g' :: []), ('x' :: [])]] [] []
      = runModel decodeEx 10 [(('a' :: 'b' :: []), none)] [[('g' :: [])]] [] [] :=
  c3_no_failure_reporting decodeEx 10 [(('a' :: 'b' :: []), none)] [] []
    [[('g' :: []), ('x' :: [])]] [[('g' :: [])]] (by decide)

/-- Claim C7, counterexample: with the malformed line x followed by the
well-formed line g, the stream yields nothing at all: the record after
the malformed one is not yielded, so the stream does not skip the bad
record and continue. -/
theorem c7_counterexample :
    decodeEx ('x' :: []) = none
    ∧ decodeEx ('g' :: []) = some vGood
    ∧ (ytdlpResults decodeEx [('x' :: []), ('g' :: [])]).1 = []
    ∧ ¬ ((ytdlpResults decodeEx [('x' :: []), ('g' :: [])]).1 = [vGood]) := by
  decide

/-- Claim C7 (amended): a record that cannot be parsed terminates that
query's stream: the records before it are yielded and the stream ends in
the error state, dropping the malformed record and everything after it. -/
theorem c7_malformed_ends_stream (decode : Str → Option VideoData)
    (pre : List Str) (bad : Str) (post : List Str)
    (h1 : ∀ l ∈ pre, (decode l).isSome) (h2 : decode bad = none) :
    ytdlpResults decode (pre ++ bad :: post) = (pre.filterMap decode, true) := by
  induction pre with
  | nil => simp [ytdlpResults, h2]
  | cons l pre ih =>
    obtain ⟨v, hv⟩ := Option.isSome_iff_exists.mp (h1 l (List.mem_cons_self l pre))
    have ih' := ih (fun l' hl' => h1 l' (List.mem_cons_of_mem _ hl'))
    simp [ytdlpResults, hv, ih', List.filterMap_cons]

/-- Witness for c7_malformed_ends_stream: good line, bad line, good line
yields only the first record, with the error flag set. -/
theorem c7_malformed_ends_stream_witness :
    ytdlpResults decodeEx ([('g' :: [])] ++ ('x' :: []) :: [('g' :: [])])
      = ([('g' :: [])].filterMap decodeEx, true) :=
  c7_malformed_ends_stream decodeEx [('g' :: [])] ('x' :: []) [('g' :: [])]
    (by decide) (by decide)

theorem commonPrefixLen_le_left : ∀ a b : Str, commonPrefixLen a b ≤ a.length := by
  intro a
  induction a with
  | nil => intro b; cases b <;> simp [commonPrefixLen]
  | cons x as ih =>
    intro b
    cases b with
    | nil => simp [commonPrefixLen]
    | cons y bs =>
      by_cases hxy : x = y
      · simpa [commonPrefixLen, hxy] using ih bs
      · simp [commonPrefixLen, hxy]

theorem commonPrefixLen_le_right : ∀ a b : Str, commonPrefixLen a b ≤ b.length := by
  intro a
  induction a with
  | nil => intro b; cases b <;> simp [commonPrefixLen]
  | cons x as ih =>
    intro b
    cases b with
    | nil => simp [commonPrefixLen]
    | cons y bs =>
      by_cases hxy : x = y
      · simpa [commonPrefixLen, hxy] using ih bs
      · simp [commonPrefixLen, hxy]

theorem foldr_max_le {L : List Nat} {m : Nat} (h : ∀ x ∈ L, x ≤ m) :
    L.foldr max 0 ≤ m := by
  induction L with
  | nil => simp
  | cons x L ih =>
    simp only [List.foldr_cons]
    exact max_le (h x (List.mem_cons_self x L)) (ih fun y hy => h y (List.mem_cons_of_mem _ hy))

theorem lcsLen_le_min (a b : Str) : lcsLen a b ≤ min a.length b.length := by
  unfold lcsLen
  refine foldr_max_le ?_
  intro x hx
  simp only [List.mem_map, List.mem_range] at hx
  obtain ⟨i, _, rfl⟩ := hx
  refine foldr_max_le ?_
  intro y hy
  simp only [List.mem_map, List.mem_range] at hy
  obtain ⟨j, _, rfl⟩ := hy
  refine le_min ?_ ?_
  · exact le_trans (le_trans (commonPrefixLen_le_left _ _) (by simp [List.length_drop]))
      (Nat.le_refl a.length)
  · exact le_trans (le_trans (commonPrefixLen_le_right _ _) (by simp [List.length_drop]))
      (Nat.le_refl b.length)

theorem score_le_100 (c q : Str) : score c q ≤ 100 := by
  unfold score
  by_cases hm : min c.length q.length = 0
  · simp only [hm, if_pos rfl]
    by_cases h : c = [] ∧ q = [] <;> simp [h]
  · simp only [hm, if_neg hm]
    have h1 : lcsLen c q ≤ min c.length q.length := lcsLen_le_min c q
    calc 100 * lcsLen c q / min c.length q.length
        ≤ 100 * min c.length q.length / min c.length q.length :=
          Nat.div_le_div_right (Nat.mul_le_mul_left _ h1)
      _ = 100 := Nat.mul_div_cancel 100 (Nat.pos_of_ne_zero hm)

/-- Claim C5: the search stage's filters. A candidate with an ignored
uploader contributes nothing, whatever its other fields (the uploader
check comes first); a candidate with an ignored identifier contributes
nothing even when its upload date is malformed (the identifier check
precedes the date handling); and a candidate passing every check is
emitted at its arrival position, ahead of the results of the remaining
candidates. -/
theorem c5_exclusion_filters (ss : Str) (n : Nat) (ignoreUploaders ignoreIds : List Str)
    (ib : Option Date) (v : VideoData) (rest : List VideoData) :
    (v.uploader ∈ ignoreUploaders →
      search ss n ignoreUploaders ignoreIds ib (v :: rest)
        = search ss n ignoreUploaders ignoreIds ib rest)
    ∧ (v.uploader ∉ ignoreUploaders → v.display_id ∈ ignoreIds →
      search ss n ignoreUploaders ignoreIds ib (v :: rest)
        = search ss n ignoreUploaders ignoreIds ib rest)
    ∧ (∀ up, v.uploader ∉ ignoreUploaders → v.display_id ∉ ignoreIds →
      parse8 v.upload_date = some up →
      cutoffHit ib up = false →
      search ss n ignoreUploaders ignoreIds ib (v :: rest)
        = mkSearchResult v up (score v.title ss) ss
            :: search ss n ignoreUploaders ignoreIds ib rest) := by
  refine ⟨?_, ?_, ?_⟩
  · intro hU
    simp [search, hU]
  · intro hU hI
    simp [search, hU, hI]
  · intro up hU hI hp hc
    simp [search, hU, hI, hp, hc]

/-- Witness for c5_exclusion_filters: vGood is dropped when its uploader
is ignored, dropped when its identifier is ignored, and emitted when
nothing is ignored. -/
theorem c5_exclusion_filters_witness :
    search ('a' :: 'b' :: []) 1 [('u' :: 'p' :: [])] [] none [vGood] = []
    ∧ search ('a' :: 'b' :: []) 1 [] [('i' :: 'd' :: '1' :: [])] none [vGood] = []
    ∧ search ('a' :: 'b' :: []) 1 [] [] none [vGood]
        = [mkSearchResult vGood ⟨2024, 1, 2⟩ (score vGood.title ('a' :: 'b' :: []))
            ('a' :: 'b' :: [])] := by
  refine ⟨?_, ?_, ?_⟩
  · have h := (c5_exclusion_filters ('a' :: 'b' :: []) 1 [('u' :: 'p' :: [])] [] none
      vGood []).1 (by decide)
    simpa [search] using h
  · have h := (c5_exclusion_filters ('a' :: 'b' :: []) 1 [] [('i' :: 'd' :: '1' :: [])]
      none vGood []).2.1 (by decide) (by decide)
    simpa [search] using h
  · have h := (c5_exclusion_filters ('a' :: 'b' :: []) 1 [] [] none vGood []).2.2
      ⟨2024, 1, 2⟩ (by decide) (by decide) (by decide) (by decide)
    simpa [search] using h

/-- Claim C6: the date cutoff. For a candidate passing the uploader and
identifier checks, with a parsed upload date: under a cutoff, a date
strictly before it drops the candidate and a date at or after it leaves
the candidate emitted; with no cutoff the candidate is emitted. -/
theorem c6_cutoff (ss : Str) (n : Nat) (ignoreUploaders ignoreIds : List Str)
    (v : VideoData) (rest : List VideoData) (up : Date)
    (hU : v.uploader ∉ ignoreUploaders) (hI : v.display_id ∉ ignoreIds)
    (hp : parse8 v.upload_date = some up) :
    (∀ cutoff, dateLt up cutoff = true →
      search ss n ignoreUploaders ignoreIds (some cutoff) (v :: rest)
        = search ss n ignoreUploaders ignoreIds (some cutoff) rest)
    ∧ (∀ cutoff, dateLt up cutoff = false →
      search ss n ignoreUploaders ignoreIds (some cutoff) (v :: rest)
        = mkSearchResult v up (score v.title ss) ss
            :: search ss n ignoreUploaders ignoreIds (some cutoff) rest)
    ∧ (search ss n ignoreUploaders ignoreIds none (v :: rest)
        = mkSearchResult v up (score v.title ss) ss
            :: search ss n ignoreUploaders ignoreIds none rest) := by
  refine ⟨?_, ?_, ?_⟩
  · intro cutoff hlt
    simp [search, cutoffHit, hU, hI, hp, hlt]
  · intro cutoff hge
    simp [search, cutoffHit, hU, hI, hp, hge]
  · simp [search, cutoffHit, hU, hI, hp]

/-- Witness for c6_cutoff: vGood (uploaded 2024-01-02) is dropped under
cutoff 2024-02-01, kept under cutoff 2024-01-01, and kept with no
cutoff. -/
theorem c6_cutoff_witness :
    search ('a' :: 'b' :: []) 1 [] [] (some ⟨2024, 2, 1⟩) [vGood] = []
    ∧ search ('a' :: 'b' :: []) 1 [] [] (some ⟨2024, 1, 1⟩) [vGood]
        = [mkSearchResult vGood ⟨2024, 1, 2⟩ (score vGood.title ('a' :: 'b' :: []))
            ('a' :: 'b' :: [])]
    ∧ search ('a' :: 'b' :: []) 1 [] [] none [vGood]
        = [mkSearchResult vGood ⟨2024, 1, 2⟩ (score vGood.title ('a' :: 'b' :: []))
            ('a' :: 'b' :: [])] := by
  have h := c6_cutoff ('a' :: 'b' :: []) 1 [] [] vGood [] ⟨2024, 1, 2⟩
    (by decide) (by decide) (by decide)
  refine ⟨?_, ?_, ?_⟩
  · have h1 := h.1 ⟨2024, 2, 1⟩ (by decide)
    simpa [search] using h1
  · have h2 := h.2.1 ⟨2024, 1, 1⟩ (by decide)
    simpa [search] using h2
  · have h3 := h.2.2
    simpa [search] using h3

/-- Claim C8: the scorer is total and deterministic with values in
0..100 (the lower bound holds by the result type), and every result the
search stage emits carries, as its similarity, the score of the emitting
candidate's title against the query string of that very search, recorded
in the result's search_term field. -/
theorem c8_score_contract :
    (∀ c q : Str, score c q ≤ 100)
    ∧ (∀ c₁ c₂ q₁ q₂ : Str, c₁ = c₂ → q₁ = q₂ → score c₁ q₁ = score c₂ q₂)
    ∧ (∀ (ss : Str) (n : Nat) (ignoreUploaders ignoreIds : List Str)
        (ib : Option Date) (vs : List VideoData) (r : SearchResult),
        r ∈ search ss n ignoreUploaders ignoreIds ib vs →
        r.search_term = ss ∧ r.similarity ≤ 100
          ∧ ∃ v ∈ vs, r.similarity = score v.title ss) := by
  refine ⟨score_le_100, ?_, ?_⟩
  · intro c₁ c₂ q₁ q₂ hc hq
    rw [hc, hq]
  · intro ss n ignoreUploaders ignoreIds ib vs
    induction vs with
    | nil => intro r hr; simp [search] at hr
    | cons v rest ih =>
      intro r hr
      simp only [search] at hr
      by_cases hU : v.uploader ∈ ignoreUploaders
      · rw [if_pos hU] at hr
        obtain ⟨h1, h2, v', hv', hs⟩ := ih r hr
        exact ⟨h1, h2, v', List.mem_cons_of_mem _ hv', hs⟩
      · rw [if_neg hU] at hr
        by_cases hI : v.display_id ∈ ignoreIds
        · rw [if_pos hI] at hr
          obtain ⟨h1, h2, v', hv', hs⟩ := ih r hr
          exact ⟨h1, h2, v', List.mem_cons_of_mem _ hv', hs⟩
        · rw [if_neg hI] at hr
          cases hp : parse8 v.upload_date with
          | none => simp only [hp] at hr; simp at hr
          | some up =>
            simp only [hp] at hr
            by_cases hc : cutoffHit ib up = true
            · rw [if_pos hc] at hr
              obtain ⟨h1, h2, v', hv', hs⟩ := ih r hr
              exact ⟨h1, h2, v', List.mem_cons_of_mem _ hv', hs⟩
            · rw [if_neg hc] at hr
              rcases List.mem_cons.mp hr with hr | hr
              · subst hr
                exact ⟨rfl, score_le_100 _ _, v, List.mem_cons_self v rest, rfl⟩
              · obtain ⟨h1, h2, v', hv', hs⟩ := ih r hr
                exact ⟨h1, h2, v', List.mem_cons_of_mem _ hv', hs⟩

/-- Witness for c8_score_contract at a concrete search emitting one
result for the query string ab. -/
theorem c8_score_contract_witness :
    score ('a' :: 'b' :: []) ('a' :: 'b' :: 'c' :: []) ≤ 100
    ∧ ((mkSearchResult vGood ⟨2024, 1, 2⟩
          (score vGood.title ('a' :: 'b' :: [])) ('a' :: 'b' :: [])).search_term
        = ('a' :: 'b' :: [])
      ∧ (mkSearchResult vGood ⟨2024, 1, 2⟩
          (score vGood.title ('a' :: 'b' :: [])) ('a' :: 'b' :: [])).similarity ≤ 100
      ∧ ∃ v ∈ [vGood],
          (mkSearchResult vGood ⟨2024, 1, 2⟩
            (score vGood.title ('a' :: 'b' :: [])) ('a' :: 'b' :: [])).similarity
          = score v.title ('a' :: 'b' :: [])) :=
  ⟨c8_score_contract.1 ('a' :: 'b' :: []) ('a' :: 'b' :: 'c' :: []),
   c8_score_contract.2.2 ('a' :: 'b' :: []) 1 [] [] none [vGood] _ (by decide)⟩

/-! The result store: print_results writes one line per result;
parse_results_file reads the file back. Splitting on the separator and
joining with it follow Python str.split and str.join (leftmost
non-overlapping matches). -/

/-- Python s.split(sep) for a nonempty separator: scan left to right,
cutting at each leftmost occurrence of sep. -/
def splitOnSep (sep : Str) (l : Str) : List Str :=
  if h : sep ≠ [] ∧ sep <+: l then
    [] :: splitOnSep sep (l.drop sep.length)
  else
    match l with
    | [] => [[]]
    | c :: cs =>
      match splitOnSep sep cs with
      | [] => [[c]]
      | chunk :: rest => (c :: chunk) :: rest
termination_by l.length
decreasing_by
  · have h1 : sep.length ≤ l.length := h.2.length_le
    have h2 : 0 < sep.length := List.length_pos.mpr h.1
    simp only [List.length_drop]
    omega
  · simp

/-- Python sep.join. -/
def joinSep (sep : Str) : List Str → Str
  | [] => []
  | [x] => x
  | x :: y :: rest => x ++ sep ++ joinSep sep (y :: rest)

/-- Python file.readlines(): split after every newline character,
keeping the newline at the end of each line; a last segment without a
newline is kept too, and an empty tail yields no line. -/
def readlines : Str → List Str
  | [] => []
  | c :: cs =>
    if c = '\n' then ['\n'] :: readlines cs
    else
      match readlines cs with
      | [] => [[c]]
      | l :: ls => (c :: l) :: ls

/-- The unpacking of parse_results_file on the split parts of one line:
date, similarity, any number of title pieces, uploader and url (at least
four parts, raising otherwise); the middle pieces are rejoined as the
title and the similarity is parsed as an integer. -/
def parseParts : List Str → Option (Str × Nat × Str × Str × Str)
  | d :: s :: rest =>
    if 2 ≤ rest.length then
      match parseNat s with
      | some sim =>
        some (d, sim, joinSep SEP (rest.take (rest.length - 2)),
          rest.getD (rest.length - 2) [], rest.getD (rest.length - 2 + 1) [])
      | none => none
    else none
  | _ => none

/-- The parsing step of parse_results_file on one stripped line: split on
the separator and unpack. -/
def parseFields (line : Str) : Option (Str × Nat × Str × Str × Str) :=
  parseParts (splitOnSep SEP line)

/-- The SearchResult parse_results_file rebuilds from one parsed line:
fresh display strings (the similarity uncolored and unpadded in the
colored display), an empty search term, and the parsed similarity. -/
def mkLoaded (d : Str) (sim : Nat) (t u v : Str) : SearchResult :=
  ⟨colored d ('w' :: 'h' :: 'i' :: 't' :: 'e' :: []) ++ SEP ++ natStr sim
     ++ SEP ++ colored t ('g' :: 'r' :: 'e' :: 'e' :: 'n' :: [])
     ++ SEP ++ colored u ('y' :: 'e' :: 'l' :: 'l' :: 'o' :: 'w' :: []) ++ SEP ++ v,
   d ++ SEP ++ natStr sim ++ SEP ++ t ++ SEP ++ u ++ SEP ++ v,
   [], sim⟩

/-- The loop of parse_results_file over the stripped lines: yield a
rebuilt SearchResult per line until a line fails to parse, which raises
and ends the generator. -/
def loadLines : List Str → List SearchResult
  | [] => []
  | l :: ls =>
    match parseFields (pyStrip l) with
    | none => []
    | some (d, sim, t, u, v) => mkLoaded d sim t u v :: loadLines ls

/-- parse_results_file on the content of the results file. -/
def parseResultsFile (file : Str) : List SearchResult :=
  loadLines (readlines file)

/-- print_results: write each result's display line, newline-terminated,
to the results file in arrival order. -/
def printResults (rs : List SearchResult) : Str :=
  (rs.map (fun r => r.display ++ ['\n'])).flatten

theorem splitOnSep_nil (sep : Str) : splitOnSep sep [] = [[]] := by
  rw [splitOnSep]
  rw [dif_neg]
  rintro ⟨h1, h2⟩
  exact h1 (List.prefix_nil.mp h2)

theorem splitOnSep_pos (sep l : Str) (h1 : sep ≠ []) (h2 : sep <+: l) :
    splitOnSep sep l = [] :: splitOnSep sep (l.drop sep.length) := by
  rw [splitOnSep]
  rw [dif_pos ⟨h1, h2⟩]

theorem splitOnSep_cons_neg (sep : Str) (c : Char) (cs : Str)
    (h : ¬ sep <+: (c :: cs)) :
    splitOnSep sep (c :: cs)
      = match splitOnSep sep cs with
        | [] => [[c]]
        | chunk :: rest => (c :: chunk) :: rest := by
  rw [splitOnSep]
  rw [dif_neg]
  rintro ⟨_, hp⟩
  exact h hp

theorem splitOnSep_ne_nil (sep l : Str) : splitOnSep sep l ≠ [] := by
  rw [splitOnSep]
  split
  · simp
  · split
    · simp
    · split <;> simp

/-- The cons form of splitOnSep at a position where the separator does
not match, given the split of the tail. -/
theorem splitOnSep_cons_of_ne (sep : Str) (c : Char) (cs : Str)
    (chunk : Str) (rest : List Str) (h : ¬ sep <+: (c :: cs))
    (hcr : splitOnSep sep cs = chunk :: rest) :
    splitOnSep sep (c :: cs) = (c :: chunk) :: rest := by
  rw [splitOnSep_cons_neg sep c cs h, hcr]

theorem joinSep_cons_cons (sep x y : Str) (rest : List Str) :
    joinSep sep (x :: y :: rest) = x ++ sep ++ joinSep sep (y :: rest) := rfl

theorem joinSep_cons_chunk (sep : Str) (c : Char) (chunk : Str) (rest : List Str) :
    joinSep sep ((c :: chunk) :: rest) = c :: joinSep sep (chunk :: rest) := by
  cases rest <;> simp [joinSep]

/-- Joining the split pieces with the separator restores the string. -/
theorem joinSep_splitOnSep (sep : Str) (hsep : sep ≠ []) (l : Str) :
    joinSep sep (splitOnSep sep l) = l := by
  have main : ∀ n, ∀ l : Str, l.length ≤ n →
      joinSep sep (splitOnSep sep l) = l := by
    intro n
    induction n with
    | zero =>
      intro l hl
      have hnil : l = [] := List.length_eq_zero.mp (Nat.le_zero.mp hl)
      subst hnil
      rw [splitOnSep_nil]
      rfl
    | succ n ih =>
      intro l hl
      by_cases hpre : sep <+: l
      · rw [splitOnSep_pos sep l hsep hpre]
        obtain ⟨r, rfl⟩ := hpre
        rw [List.drop_left]
        obtain ⟨chunk, rest, hcr⟩ : ∃ chunk rest,
            splitOnSep sep r = chunk :: rest := by
          cases hsp : splitOnSep sep r with
          | nil => exact absurd hsp (splitOnSep_ne_nil sep r)
          | cons a b => exact ⟨a, b, rfl⟩
        rw [hcr, joinSep_cons_cons, ← hcr]
        have hr : r.length ≤ n := by
          have h2 : 0 < sep.length := List.length_pos.mpr hsep
          have h3 := hl
          simp only [List.length_append] at h3
          omega
        rw [ih r hr]
        simp
      · cases l with
        | nil =>
          rw [splitOnSep_nil]
          rfl
        | cons c cs =>
          obtain ⟨chunk, rest, hcr⟩ : ∃ chunk rest,
              splitOnSep sep cs = chunk :: rest := by
            cases hsp : splitOnSep sep cs with
            | nil => exact absurd hsp (splitOnSep_ne_nil sep cs)
            | cons a b => exact ⟨a, b, rfl⟩
          rw [splitOnSep_cons_of_ne sep c cs chunk rest hpre hcr]
          rw [joinSep_cons_chunk, ← hcr]
          have hcs : cs.length ≤ n := by
            simp only [List.length_cons] at hl
            omega
          rw [ih cs hcs]
  exact main l.length l le_rfl

theorem drop_append_le {α : Type} (x y : List α) (p : Nat) (h : p ≤ x.length) :
    (x ++ y).drop p = x.drop p ++ y := by
  induction x generalizing p with
  | nil =>
    have : p = 0 := Nat.le_zero.mp (by simpa using h)
    subst this
    simp
  | cons c x' ih =>
    cases p with
    | zero => simp
    | succ p' =>
      simp only [List.cons_append, List.drop_succ_cons]
      exact ih p' (by simpa using h)

/-- Splitting a string that starts with a separator-free chunk followed
by the separator cuts exactly that chunk first. The hypothesis says the
separator matches nowhere inside the chunk, including positions where a
match would straddle into the appended separator. -/
theorem split_chunk (sep : Str) (hsep : sep ≠ []) (x r : Str)
    (hA : ∀ p < x.length, ¬ sep <+: ((x ++ (sep ++ r)).drop p)) :
    splitOnSep sep (x ++ (sep ++ r)) = x :: splitOnSep sep r := by
  induction x with
  | nil =>
    simp only [List.nil_append]
    rw [splitOnSep_pos sep (sep ++ r) hsep (List.prefix_append sep r), List.drop_left]
  | cons c x' ih =>
    have h0 : ¬ sep <+: (c :: (x' ++ (sep ++ r))) := by
      have := hA 0 (by simp)
      simpa using this
    have ih' := ih (fun p hp => by
      have := hA (p + 1) (by simp; omega)
      simpa [List.cons_append] using this)
    simpa [List.cons_append] using
      splitOnSep_cons_of_ne sep c (x' ++ (sep ++ r)) x' (splitOnSep sep r) h0 ih'

/-- Splitting a string of the form chunk-block, separator, rest
decomposes as the split of the block followed by the split of the rest,
provided no separator match straddles the block's end: any match inside
the block region of the full string is already a match inside the
block. -/
theorem split_append (sep : Str) (hsep : sep ≠ []) (x r : Str)
    (hNS : ∀ p < x.length, sep <+: ((x ++ (sep ++ r)).drop p) → sep <+: x.drop p) :
    splitOnSep sep (x ++ (sep ++ r)) = splitOnSep sep x ++ splitOnSep sep r := by
  have main : ∀ n, ∀ x : Str, x.length ≤ n →
      (∀ p < x.length, sep <+: ((x ++ (sep ++ r)).drop p) → sep <+: x.drop p) →
      splitOnSep sep (x ++ (sep ++ r)) = splitOnSep sep x ++ splitOnSep sep r := by
    intro n
    induction n with
    | zero =>
      intro x hl _
      have hnil : x = [] := List.length_eq_zero.mp (Nat.le_zero.mp hl)
      subst hnil
      simp only [List.nil_append]
      rw [splitOnSep_pos sep (sep ++ r) hsep (List.prefix_append sep r),
        List.drop_left, splitOnSep_nil]
      rfl
    | succ n ih =>
      intro x hl hNS
      by_cases hpre : sep <+: x
      · obtain ⟨x₂, rfl⟩ := hpre
        have hlen2 : x₂.length ≤ n := by
          have h2 : 0 < sep.length := List.length_pos.mpr hsep
          have h3 := hl
          simp only [List.length_append] at h3
          omega
        have hNS2 : ∀ p < x₂.length,
            sep <+: ((x₂ ++ (sep ++ r)).drop p) → sep <+: x₂.drop p := by
          intro p hp hq
          have harg : ((sep ++ x₂) ++ (sep ++ r)).drop (sep.length + p)
              = (x₂ ++ (sep ++ r)).drop p := by
            rw [List.append_assoc, ← List.drop_drop, List.drop_left]
          have hx : (sep ++ x₂).drop (sep.length + p) = x₂.drop p := by
            rw [← List.drop_drop, List.drop_left]
          have := hNS (sep.length + p)
            (by simp only [List.length_append]; omega) (by rw [harg]; exact hq)
          rwa [hx] at this
        rw [List.append_assoc]
        rw [splitOnSep_pos sep (sep ++ (x₂ ++ (sep ++ r))) hsep
          (List.prefix_append _ _), List.drop_left]
        rw [splitOnSep_pos sep (sep ++ x₂) hsep (List.prefix_append _ _),
          List.drop_left]
        rw [ih x₂ hlen2 hNS2]
        rfl
      · cases x with
        | nil =>
          simp only [List.nil_append]
          rw [splitOnSep_pos sep (sep ++ r) hsep (List.prefix_append sep r),
            List.drop_left, splitOnSep_nil]
          rfl
        | cons c cs =>
          have h0 : ¬ sep <+: (c :: (cs ++ (sep ++ r))) := by
            intro hq
            exact hpre (by simpa using hNS 0 (by simp) (by simpa using hq))
          have hlen2 : cs.length ≤ n := by
            simp only [List.length_cons] at hl
            omega
          have hNS2 : ∀ p < cs.length,
              sep <+: ((cs ++ (sep ++ r)).drop p) → sep <+: cs.drop p := by
            intro p hp hq
            have := hNS (p + 1) (by simp; omega)
              (by simpa [List.cons_append] using hq)
            simpa using this
          obtain ⟨chunk, rest, hcr⟩ : ∃ chunk rest,
              splitOnSep sep cs = chunk :: rest := by
            cases hsp : splitOnSep sep cs with
            | nil => exact absurd hsp (splitOnSep_ne_nil sep cs)
            | cons a b => exact ⟨a, b, rfl⟩
          have hmid := ih cs hlen2 hNS2
          rw [hcr] at hmid
          have hleft : splitOnSep sep ((c :: cs) ++ (sep ++ r))
              = (c :: chunk) :: (rest ++ splitOnSep sep r) := by
            have := splitOnSep_cons_of_ne sep c (cs ++ (sep ++ r))
              chunk (rest ++ splitOnSep sep r) h0 (by rw [hmid]; simp)
            simpa [List.cons_append] using this
          rw [hleft, splitOnSep_cons_of_ne sep c cs chunk rest hpre hcr]
          simp
  exact main x.length x le_rfl hNS

/-- A string with no separator match anywhere splits as itself alone. -/
theorem split_of_no_match (sep : Str) (x : Str)
    (h : ∀ p < x.length, ¬ sep <+: x.drop p) :
    splitOnSep sep x = [x] := by
  induction x with
  | nil => exact splitOnSep_nil sep
  | cons c cs ih =>
    have h0 : ¬ sep <+: (c :: cs) := by simpa using h 0 (by simp)
    have ih' := ih (fun p hp => by simpa using h (p + 1) (by simp; omega))
    exact splitOnSep_cons_of_ne sep c cs cs [] h0 ih'

/-- No occurrence of SEP anywhere in the string. -/
def sepFreeP (x : Str) : Prop := ∀ p < x.length, ¬ (SEP <+: x.drop p)

/-- The string does not end in space-pipe, the only suffix that can
combine with a following SEP into a spurious SEP match. -/
def notEndsBar (x : Str) : Prop := x.drop (x.length - 2) ≠ [' ', '|']

/-- The string contains no newline. -/
def noNL (x : Str) : Prop := '\n' ∉ x

instance sepFreeP.dec (x : Str) : Decidable (sepFreeP x) := by
  unfold sepFreeP
  infer_instance

instance notEndsBar.dec (x : Str) : Decidable (notEndsBar x) := by
  unfold notEndsBar
  infer_instance

instance noNL.dec (x : Str) : Decidable (noNL x) := by
  unfold noNL
  infer_instance

/-- Where SEP can match inside the block region of block ++ SEP ++ rest:
either it already matches inside the block, or the block ends in
space-pipe and the match straddles the boundary. -/
theorem sep_match_cases (x r : Str) (p : Nat) (hp : p < x.length)
    (hpre : SEP <+: ((x ++ (SEP ++ r)).drop p)) :
    SEP <+: x.drop p ∨ (x.drop p = [' ', '|'] ∧ p = x.length - 2) := by
  rw [drop_append_le x (SEP ++ r) p (le_of_lt hp)] at hpre
  have hlen : (x.drop p).length = x.length - p := List.length_drop p x
  cases hcase : x.drop p with
  | nil =>
    rw [hcase] at hlen
    simp at hlen
    omega
  | cons a tail =>
    cases tail with
    | nil =>
      rw [hcase] at hpre
      obtain ⟨w, hw⟩ := hpre
      simp only [SEP, List.cons_append, List.nil_append, List.singleton_append,
        List.cons.injEq] at hw
      exact absurd hw.2.2.1 (by decide)
    | cons b tail2 =>
      cases tail2 with
      | nil =>
        rw [hcase] at hpre
        obtain ⟨w, hw⟩ := hpre
        simp only [SEP, List.cons_append, List.nil_append, List.cons.injEq] at hw
        obtain ⟨ha, hb, -⟩ := hw
        subst ha
        subst hb
        refine Or.inr ⟨rfl, ?_⟩
        rw [hcase] at hlen
        simp at hlen
        omega
      | cons c3 tail3 =>
        rw [hcase] at hpre
        obtain ⟨w, hw⟩ := hpre
        simp only [SEP, List.cons_append, List.nil_append, List.cons.injEq] at hw
        obtain ⟨ha, hb, hc, -⟩ := hw
        subst ha
        subst hb
        subst hc
        exact Or.inl ⟨tail3, rfl⟩

/-- A separator-free block not ending in space-pipe admits no SEP match
in its region of block ++ SEP ++ rest. -/
theorem chunk_cond (x r : Str) (h1 : sepFreeP x) (h2 : notEndsBar x) :
    ∀ p < x.length, ¬ SEP <+: ((x ++ (SEP ++ r)).drop p) := by
  intro p hp hpre
  rcases sep_match_cases x r p hp hpre with h | ⟨h, hp2⟩
  · exact h1 p hp h
  · exact h2 (hp2 ▸ h)

/-- A block not ending in space-pipe satisfies the no-straddle condition
of split_append. -/
theorem straddle_cond (x r : Str) (h2 : notEndsBar x) :
    ∀ p < x.length, SEP <+: ((x ++ (SEP ++ r)).drop p) → SEP <+: x.drop p := by
  intro p hp hpre
  rcases sep_match_cases x r p hp hpre with h | ⟨h, hp2⟩
  · exact h
  · exact absurd (hp2 ▸ h) h2

/-- Splitting a full result line recovers the five field regions: the
date, similarity, uploader fields are separator free and none of the
fields before the url ends in space-pipe; the title may contain the
separator and contributes its own pieces. -/
theorem split_line (d s t u v : Str)
    (hd1 : sepFreeP d) (hd2 : notEndsBar d)
    (hs1 : sepFreeP s) (hs2 : notEndsBar s)
    (ht : notEndsBar t)
    (hu1 : sepFreeP u) (hu2 : notEndsBar u)
    (hv : sepFreeP v) :
    splitOnSep SEP (d ++ SEP ++ s ++ SEP ++ t ++ SEP ++ u ++ SEP ++ v)
      = d :: s :: (splitOnSep SEP t ++ [u, v]) := by
  have hne : SEP ≠ [] := by decide
  have e5 : splitOnSep SEP v = [v] := split_of_no_match SEP v hv
  have e4 : splitOnSep SEP (u ++ (SEP ++ v)) = u :: splitOnSep SEP v :=
    split_chunk SEP hne u v (chunk_cond u v hu1 hu2)
  have e3 : splitOnSep SEP (t ++ (SEP ++ (u ++ (SEP ++ v))))
      = splitOnSep SEP t ++ splitOnSep SEP (u ++ (SEP ++ v)) :=
    split_append SEP hne t (u ++ (SEP ++ v))
      (straddle_cond t (u ++ (SEP ++ v)) ht)
  have e2 : splitOnSep SEP (s ++ (SEP ++ (t ++ (SEP ++ (u ++ (SEP ++ v))))))
      = s :: splitOnSep SEP (t ++ (SEP ++ (u ++ (SEP ++ v)))) :=
    split_chunk SEP hne s (t ++ (SEP ++ (u ++ (SEP ++ v))))
      (chunk_cond s (t ++ (SEP ++ (u ++ (SEP ++ v)))) hs1 hs2)
  have e1 : splitOnSep SEP
        (d ++ (SEP ++ (s ++ (SEP ++ (t ++ (SEP ++ (u ++ (SEP ++ v))))))))
      = d :: splitOnSep SEP (s ++ (SEP ++ (t ++ (SEP ++ (u ++ (SEP ++ v)))))) :=
    split_chunk SEP hne d (s ++ (SEP ++ (t ++ (SEP ++ (u ++ (SEP ++ v))))))
      (chunk_cond d (s ++ (SEP ++ (t ++ (SEP ++ (u ++ (SEP ++ v)))))) hd1 hd2)
  simp only [List.append_assoc]
  rw [e1, e2, e3, e4, e5]

theorem getD_append_two {α : Type} (a : List α) (u v dflt : α) :
    (a ++ [u, v]).getD a.length dflt = u
    ∧ (a ++ [u, v]).getD (a.length + 1) dflt = v := by
  induction a with
  | nil => simp [List.getD]
  | cons x a ih =>
    simpa [List.getD_cons_succ] using ih

/-- parseParts on the part list of a well-formed line recovers the five
fields, rejoining the title's pieces. -/
theorem parseParts_eval (d s : Str) (sim : Nat) (t u v : Str)
    (hsim : parseNat s = some sim) :
    parseParts (d :: s :: (splitOnSep SEP t ++ [u, v])) = some (d, sim, t, u, v) := by
  have hk : (splitOnSep SEP t ++ [u, v]).length - 2 = (splitOnSep SEP t).length := by
    simp
  have htake : (splitOnSep SEP t ++ [u, v]).take
      ((splitOnSep SEP t ++ [u, v]).length - 2) = splitOnSep SEP t := by
    rw [hk]
    exact List.take_left' rfl
  have hgd := getD_append_two (splitOnSep SEP t) u v ([] : Str)
  simp only [parseParts, hsim]
  rw [if_pos (by simp)]
  rw [htake, hk, hgd.1, hgd.2]
  rw [joinSep_splitOnSep SEP (by decide) t]

/-- parseFields on a well-formed line recovers the five fields. -/
theorem parseFields_line (d s : Str) (sim : Nat) (t u v : Str)
    (hd1 : sepFreeP d) (hd2 : notEndsBar d)
    (hs1 : sepFreeP s) (hs2 : notEndsBar s)
    (ht : notEndsBar t)
    (hu1 : sepFreeP u) (hu2 : notEndsBar u)
    (hv : sepFreeP v)
    (hsim : parseNat s = some sim) :
    parseFields (d ++ SEP ++ s ++ SEP ++ t ++ SEP ++ u ++ SEP ++ v)
      = some (d, sim, t, u, v) := by
  unfold parseFields
  rw [split_line d s t u v hd1 hd2 hs1 hs2 ht hu1 hu2 hv]
  exact parseParts_eval d s sim t u v hsim

theorem headD_append {α : Type} (a b : List α) (dflt : α) (ha : a ≠ []) :
    (a ++ b).headD dflt = a.headD dflt := by
  cases a with
  | nil => contradiction
  | cons c t => simp

theorem getLastD_append {α : Type} (a b : List α) (dflt : α) (hb : b ≠ []) :
    (a ++ b).getLastD dflt = b.getLastD dflt := by
  obtain ⟨x, hx⟩ := Option.isSome_iff_exists.mp (List.getLast?_isSome.mpr hb)
  simp [List.getLastD_eq_getLast?, List.getLast?_append, hx]

/-- Stripping a newline-terminated line whose first and last characters
are not whitespace removes exactly the newline. -/
theorem pyStrip_newline (l : Str) (hne : l ≠ [])
    (hhead : pyIsSpace (l.headD ' ') = false)
    (hlast : pyIsSpace (l.getLastD ' ') = false) :
    pyStrip (l ++ ['\n']) = l := by
  cases l with
  | nil => contradiction
  | cons c t =>
    have hc : pyIsSpace c = false := by simpa using hhead
    unfold pyStrip
    have h1 : ((c :: t) ++ ['\n']).dropWhile pyIsSpace = (c :: t) ++ ['\n'] := by
      simp [List.dropWhile_cons, hc]
    rw [h1]
    have h2 : ((c :: t) ++ ['\n']).reverse = '\n' :: (c :: t).reverse := by
      simp
    rw [h2]
    have h3 : pyIsSpace '\n' = true := by decide
    rw [List.dropWhile_cons]
    simp only [h3, if_pos]
    cases hrev : (c :: t).reverse with
    | nil => simp at hrev
    | cons h0 rest =>
      have hh0 : h0 = (c :: t).getLastD ' ' := by
        have := List.head?_reverse (c :: t)
        rw [hrev] at this
        simp only [List.head?_cons] at this
        simp [List.getLastD_eq_getLast?, ← this]
      have hh0s : pyIsSpace h0 = false := by rw [hh0]; exact hlast
      rw [List.dropWhile_cons]
      simp only [hh0s, Bool.false_eq_true, if_neg, if_false]
      rw [← hrev, List.reverse_reverse]

/-- readlines on a newline-terminated line followed by more content
peels off that line. -/
theorem readlines_cons (x : Str) (rest : Str) (hx : noNL x) :
    readlines (x ++ '\n' :: rest) = (x ++ ['\n']) :: readlines rest := by
  induction x with
  | nil => simp [readlines]
  | cons c cs ih =>
    have hc : c ≠ '\n' := by
      intro hc
      exact hx (by simp [hc])
    have ih' := ih (fun hm => hx (List.mem_cons_of_mem _ hm))
    simp only [List.cons_append]
    rw [readlines]
    simp only [if_neg hc, ih']

/-- The data of one persisted result: the candidate fields, the query
that produced it, its parsed upload date and its similarity score. -/
structure Entry where
  title : Str
  uploader : Str
  url : Str
  vid : Str
  qtext : Str
  date : Date
  sim : Nat
deriving DecidableEq, Repr

/-- The raw record an entry came from. -/
def videoOf (e : Entry) : VideoData :=
  ⟨e.title, e.uploader, e.vid, fmt8 e.date, e.url⟩

/-- The SearchResult the search stage emitted for an entry, as written to
the store. -/
def writtenOf (e : Entry) : SearchResult :=
  ⟨(formatFromDate (videoOf e) e.date e.sim).1,
   (formatFromDate (videoOf e) e.date e.sim).2, e.qtext, e.sim⟩

/-- The SearchResult the loader rebuilds for an entry. -/
def loadedOf (e : Entry) : SearchResult :=
  mkLoaded (dashed e.date) e.sim e.title e.uploader e.url

/-- The plain display line of an entry. -/
def displayOf (e : Entry) : Str :=
  (formatFromDate (videoOf e) e.date e.sim).2

theorem displayOf_eq (e : Entry) :
    displayOf e = dashed e.date ++ SEP ++ natStr e.sim ++ SEP ++ e.title
      ++ SEP ++ e.uploader ++ SEP ++ e.url := rfl

/-- The similarity field's decimal form behaves as an inner field: no
separator inside, no space-pipe ending, no newline, and int() reads the
value back. -/
def simStrOk (n : Nat) : Prop :=
  sepFreeP (natStr n) ∧ notEndsBar (natStr n) ∧ noNL (natStr n)
    ∧ parseNat (natStr n) = some n

instance simStrOk.dec (n : Nat) : Decidable (simStrOk n) := by
  unfold simStrOk
  infer_instance

theorem simStrOk_le_100 : ∀ n < 101, simStrOk n := by decide

/-- The conditions under which one persisted entry round-trips: a valid
date, a score in range, and fields that cannot be mistaken for separator
structure (no SEP inside date, uploader or url; no field before the url
ending in space-pipe; no newlines; non-whitespace first and last line
characters). The title may contain SEP anywhere except as its final two
characters. -/
def entryOk (e : Entry) : Prop :=
  parse8 (fmt8 e.date) = some e.date
  ∧ e.sim ≤ 100
  ∧ sepFreeP (dashed e.date) ∧ notEndsBar (dashed e.date) ∧ noNL (dashed e.date)
  ∧ dashed e.date ≠ [] ∧ pyIsSpace ((dashed e.date).headD ' ') = false
  ∧ sepFreeP e.uploader ∧ notEndsBar e.uploader ∧ noNL e.uploader
  ∧ notEndsBar e.title ∧ noNL e.title
  ∧ sepFreeP e.url ∧ noNL e.url ∧ e.url ≠ []
  ∧ pyIsSpace (e.url.getLastD ' ') = false

instance entryOk.dec (e : Entry) : Decidable (entryOk e) := by
  unfold entryOk
  infer_instance

theorem parseFields_display (e : Entry) (he : entryOk e) :
    parseFields (displayOf e)
      = some (dashed e.date, e.sim, e.title, e.uploader, e.url) := by
  obtain ⟨-, hsim, hd1, hd2, -, -, -, hu1, hu2, -, ht, -, hv1, -, -, -⟩ := he
  have hs := simStrOk_le_100 e.sim (by omega)
  rw [displayOf_eq]
  exact parseFields_line (dashed e.date) (natStr e.sim) e.sim e.title e.uploader
    e.url hd1 hd2 hs.1 hs.2.1 ht hu1 hu2 hv1 hs.2.2.2

theorem display_ne_nil (e : Entry) : displayOf e ≠ [] := by
  rw [displayOf_eq]
  intro h
  simp [List.append_eq_nil, SEP] at h

theorem pyStrip_display (e : Entry) (he : entryOk e) :
    pyStrip (displayOf e ++ ['\n']) = displayOf e := by
  obtain ⟨-, -, -, -, -, hdne, hdhead, -, -, -, -, -, -, -, hvne, hvlast⟩ := he
  apply pyStrip_newline (displayOf e) (display_ne_nil e)
  · rw [displayOf_eq]
    rw [show dashed e.date ++ SEP ++ natStr e.sim ++ SEP ++ e.title ++ SEP
        ++ e.uploader ++ SEP ++ e.url
      = dashed e.date ++ (SEP ++ natStr e.sim ++ SEP ++ e.title ++ SEP
        ++ e.uploader ++ SEP ++ e.url) by simp [List.append_assoc]]
    rw [headD_append _ _ _ hdne]
    exact hdhead
  · rw [displayOf_eq]
    rw [getLastD_append _ _ _ hvne]
    exact hvlast

theorem noNL_display (e : Entry) (he : entryOk e) : noNL (displayOf e) := by
  obtain ⟨-, hsim, -, -, hd3, -, -, -, -, hu3, -, ht3, -, hv3, -, -⟩ := he
  have hs := (simStrOk_le_100 e.sim (by omega)).2.2.1
  intro hm
  rw [displayOf_eq] at hm
  simp only [List.mem_append] at hm
  rcases hm with ((((((((hm | hm) | hm) | hm) | hm) | hm) | hm) | hm) | hm)
  · exact hd3 hm
  · exact absurd hm (by decide)
  · exact hs hm
  · exact absurd hm (by decide)
  · exact ht3 hm
  · exact absurd hm (by decide)
  · exact hu3 hm
  · exact absurd hm (by decide)
  · exact hv3 hm

theorem readlines_file (es : List Entry) (h : ∀ e ∈ es, entryOk e) :
    readlines ((es.map (fun e => displayOf e ++ ['\n'])).flatten)
      = es.map (fun e => displayOf e ++ ['\n']) := by
  induction es with
  | nil => rfl
  | cons e es ih =>
    simp only [List.map_cons, List.flatten_cons]
    rw [show (displayOf e ++ ['\n'])
          ++ (es.map (fun e => displayOf e ++ ['\n'])).flatten
        = displayOf e
          ++ '\n' :: (es.map (fun e => displayOf e ++ ['\n'])).flatten by simp]
    rw [readlines_cons (displayOf e) _ (noNL_display e (h e (List.mem_cons_self e es)))]
    rw [ih (fun e' he' => h e' (List.mem_cons_of_mem _ he'))]

theorem loadLines_file (es : List Entry) (h : ∀ e ∈ es, entryOk e) :
    loadLines (es.map (fun e => displayOf e ++ ['\n'])) = es.map loadedOf := by
  induction es with
  | nil => rfl
  | cons e es ih =>
    simp only [List.map_cons, loadLines]
    rw [pyStrip_display e (h e (List.mem_cons_self e es)),
      parseFields_display e (h e (List.mem_cons_self e es))]
    rw [ih (fun e' he' => h e' (List.mem_cons_of_mem _ he'))]
    rfl

/-- Writing the display lines of a list of entries and loading them back
yields exactly the loader's rebuild of each entry, in order. -/
theorem roundtrip_core (es : List Entry) (h : ∀ e ∈ es, entryOk e) :
    parseResultsFile (printResults (es.map writtenOf)) = es.map loadedOf := by
  have hpr : printResults (es.map writtenOf)
      = (es.map (fun e => displayOf e ++ ['\n'])).flatten := by
    unfold printResults
    rw [List.map_map]
    rfl
  rw [hpr]
  unfold parseResultsFile
  rw [readlines_file es h, loadLines_file es h]

/-- Claim C4: round-trip persistence. Writing a sequence of results to
the results file and loading it back yields the loader's rebuild of every
entry in order; each stripped line parses back to the original (date,
score, title, uploader, url) projection even when the title contains the
separator, because the loader takes uploader and url as the last two
pipe-delimited fields and rejoins the middle; the reloaded display and
similarity equal the written ones; and the written lines are exactly what
format_search_result produced. -/
theorem c4_roundtrip (es : List Entry) (h : ∀ e ∈ es, entryOk e) :
    parseResultsFile (printResults (es.map writtenOf)) = es.map loadedOf
    ∧ (∀ e ∈ es, parseFields (pyStrip ((writtenOf e).display ++ ['\n']))
        = some (dashed e.date, e.sim, e.title, e.uploader, e.url))
    ∧ (∀ e ∈ es, (loadedOf e).display = (writtenOf e).display
        ∧ (loadedOf e).similarity = (writtenOf e).similarity)
    ∧ (∀ e ∈ es, formatSearchResult (videoOf e) e.sim
        = some ((writtenOf e).colored_display, (writtenOf e).display)) := by
  refine ⟨roundtrip_core es h, ?_, ?_, ?_⟩
  · intro e he
    rw [show (writtenOf e).display = displayOf e from rfl,
      pyStrip_display e (h e he), parseFields_display e (h e he)]
  · intro e he
    exact ⟨rfl, rfl⟩
  · intro e he
    unfold formatSearchResult
    rw [show (videoOf e).upload_date = fmt8 e.date from rfl, (h e he).1]
    rfl

/-- An entry whose title contains the pipe-separator. -/
def exEntry : Entry :=
  ⟨("foo | bar").data, ('u' :: 'p' :: []), ("http://u/x").data,
   ('i' :: 'd' :: '9' :: []), ('q' :: []), ⟨2024, 1, 15⟩, 85⟩

/-- Witness for c4_roundtrip at a single entry whose title contains the
separator. -/
theorem c4_roundtrip_witness :
    parseResultsFile (printResults ([exEntry].map writtenOf)) = [exEntry].map loadedOf
    ∧ (∀ e ∈ [exEntry], parseFields (pyStrip ((writtenOf e).display ++ ['\n']))
        = some (dashed e.date, e.sim, e.title, e.uploader, e.url))
    ∧ (∀ e ∈ [exEntry], (loadedOf e).display = (writtenOf e).display
        ∧ (loadedOf e).similarity = (writtenOf e).similarity)
    ∧ (∀ e ∈ [exEntry], formatSearchResult (videoOf e) e.sim
        = some ((writtenOf e).colored_display, (writtenOf e).display)) :=
  c4_roundtrip [exEntry] (by decide)

/-- Claim C9: every SearchResult the loader yields has the empty string
as its search_term, whatever the file holds. -/
theorem c9_search_term_empty (file : Str) (r : SearchResult)
    (hr : r ∈ parseResultsFile file) : r.search_term = [] := by
  unfold parseResultsFile at hr
  generalize readlines file = lines at hr
  induction lines with
  | nil => simp [loadLines] at hr
  | cons l ls ih =>
    simp only [loadLines] at hr
    cases hpf : parseFields (pyStrip l) with
    | none =>
      rw [hpf] at hr
      simp at hr
    | some tup =>
      obtain ⟨d, sim, t, u, v⟩ := tup
      rw [hpf] at hr
      rcases List.mem_cons.mp hr with hr | hr
      · rw [hr]
        rfl
      · exact ih hr

/-- A second concrete entry, used to exercise the loader. -/
def exEntry2 : Entry :=
  ⟨('t' :: []), ('u' :: []), ('w' :: []), ('i' :: []), ('q' :: []),
   ⟨2023, 6, 7⟩, 40⟩

/-- Witness for c9_search_term_empty on a loaded file holding one
entry. -/
theorem c9_search_term_empty_witness :
    (loadedOf exEntry2).search_term = [] :=
  c9_search_term_empty (printResults ([exEntry2].map writtenOf)) (loadedOf exEntry2)
    (by rw [roundtrip_core [exEntry2] (by decide)]; simp)

/-- The sort key of show_results: ascending similarity. -/
def similarityLe (a b : SearchResult) : Bool :=
  decide (a.similarity ≤ b.similarity)

/-- show_results: when the results argument is None or empty, reload the
results from the persisted file; sort ascending by similarity; display
exactly those with similarity at least the minimum. The returned list is
the sequence printed. -/
def showResults (minSim : Int) (results : Option (List SearchResult))
    (file : Str) : List SearchResult :=
  let rs := match results with
    | none => parseResultsFile file
    | some [] => parseResultsFile file
    | some l => l
  (rs.mergeSort similarityLe).filter (fun r => decide (minSim ≤ (r.similarity : Int)))

theorem similarityLe_trans (a b c : SearchResult)
    (hab : similarityLe a b) (hbc : similarityLe b c) : similarityLe a c := by
  simp only [similarityLe, decide_eq_true_eq] at *
  omega

theorem similarityLe_total (a b : SearchResult) :
    similarityLe a b || similarityLe b a := by
  simp only [similarityLe]
  by_cases h : a.similarity ≤ b.similarity
  · simp [h]
  · simp [h]
    omega

theorem sorted_filter_similarity (rs : List SearchResult) (m : Int) :
    ((rs.mergeSort similarityLe).filter
        (fun r => decide (m ≤ (r.similarity : Int)))).Pairwise
      (fun a b => a.similarity ≤ b.similarity) := by
  have hsorted : (rs.mergeSort similarityLe).Pairwise
      (fun a b => similarityLe a b) :=
    List.sorted_mergeSort similarityLe_trans similarityLe_total rs
  have hsorted2 : (rs.mergeSort similarityLe).Pairwise
      (fun a b => a.similarity ≤ b.similarity) :=
    hsorted.imp (fun h => by simpa [similarityLe] using h)
  exact hsorted2.sublist (List.filter_sublist _)

theorem mem_sort_filter (rs : List SearchResult) (m : Int) (r : SearchResult) :
    r ∈ (rs.mergeSort similarityLe).filter
        (fun r => decide (m ≤ (r.similarity : Int)))
      ↔ r ∈ rs ∧ m ≤ (r.similarity : Int) := by
  rw [List.mem_filter, (List.mergeSort_perm rs similarityLe).mem_iff,
    decide_eq_true_eq]

/-- Claim C10: show_results reloads from the persisted file when given
None or an empty list, displays in ascending similarity order, and
displays exactly the results meeting the minimum similarity. -/
theorem c10_show_results (m : Int) (f : Str) (l : List SearchResult) :
    showResults m none f = showResults m (some []) f
    ∧ showResults m none f
        = ((parseResultsFile f).mergeSort similarityLe).filter
          (fun r => decide (m ≤ (r.similarity : Int)))
    ∧ (∀ ro : Option (List SearchResult),
        (showResults m ro f).Pairwise (fun a b => a.similarity ≤ b.similarity))
    ∧ (l ≠ [] → ∀ r : SearchResult,
        r ∈ showResults m (some l) f ↔ r ∈ l ∧ m ≤ (r.similarity : Int))
    ∧ (∀ r : SearchResult,
        r ∈ showResults m none f ↔ r ∈ parseResultsFile f ∧ m ≤ (r.similarity : Int)) := by
  refine ⟨rfl, rfl, ?_, ?_, ?_⟩
  · intro ro
    cases ro with
    | none => exact sorted_filter_similarity _ m
    | some l' =>
      cases l' with
      | nil => exact sorted_filter_similarity _ m
      | cons a as => exact sorted_filter_similarity _ m
  · intro hl r
    cases l with
    | nil => exact absurd rfl hl
    | cons a as => exact mem_sort_filter _ m r
  · intro r
    exact mem_sort_filter _ m r

/-- Witness for c10_show_results: membership criterion at a one-element
result list. -/
theorem c10_show_results_witness :
    cA ∈ showResults 0 (some [cA]) [] ↔ cA ∈ [cA] ∧ (0 : Int) ≤ (cA.similarity : Int) :=
  (c10_show_results 0 [] [cA]).2.2.2.1 (List.cons_ne_nil cA []) cA

end SecretFills
